import Mathlib

/-!
Verification of the modelfusion streaming/retry/queue subsystem.

Strings are modelled as `List Char`; JavaScript `trimStart` / `trimEnd` /
the regex `/\s+$/` are modelled with `dropWhile` / `takeWhile` over
`Char.isWhitespace`.
-/

namespace ModelFusion

abbrev Str := List Char

def isWS (c : Char) : Bool := c.isWhitespace

/-- JS `String.prototype.trimStart`. -/
def trimStart (s : Str) : Str := s.dropWhile isWS

/-- JS `String.prototype.trimEnd`. -/
def trimEnd (s : Str) : Str := (s.reverse.dropWhile isWS).reverse

/-- The match of the regex `\s+$` (empty when there is no trailing
whitespace, mirroring a `null` match result turned into `""`). -/
def trailingWS (s : Str) : Str := (s.reverse.takeWhile isWS).reverse

/-- The mutable state captured by the closure that `streamText` passes to
`executeStreamCall` as `processDelta`: `isFirstDelta`, `trailingWhitespace`
and `accumulatedText`. -/
structure TrimState where
  isFirstDelta : Bool
  trailingWhitespace : Str
  accumulatedText : Str
deriving Repr, DecidableEq

def initialTrimState : TrimState := ⟨true, [], []⟩

/-- `model.settings.trimWhitespace ?? true` from `streamText`. -/
def shouldTrimWhitespace (trimWhitespace : Option Bool) : Bool :=
  trimWhitespace.getD true

/-- One step of the `processDelta` closure of `streamText`
(streamSpeech.ts lines 172-198), acting on the extracted text delta
(`model.extractTextDelta(delta.deltaValue)`, `none` for `null`).
Returns the updated closure state and the value returned to
`executeStreamCall` (`none` when the delta is filtered out). -/
def processDelta (shouldTrim : Bool) (st : TrimState) (extracted : Option Str) :
    TrimState × Option Str :=
  match extracted with
  | none => (st, none)
  | some textDelta =>
    if textDelta.isEmpty then (st, none)
    else
      let textDelta1 :=
        if shouldTrim then
          if st.isFirstDelta then trimStart textDelta
          else st.trailingWhitespace ++ textDelta
        else textDelta
      let newTrailing :=
        if shouldTrim then trailingWS textDelta1 else st.trailingWhitespace
      let textDelta2 := if shouldTrim then trimEnd textDelta1 else textDelta1
      (⟨false, newTrailing, st.accumulatedText ++ textDelta2⟩, some textDelta2)

/-- Runs the `processDelta` closure over a whole extracted-delta sequence,
collecting the fragments handed back to `executeStreamCall` (the emitted
public fragments) together with the final closure state. -/
def runStream (shouldTrim : Bool) : TrimState → List (Option Str) → TrimState × List Str
  | st, [] => (st, [])
  | st, d :: ds =>
    let step := processDelta shouldTrim st d
    let rest := runStream shouldTrim step.1 ds
    match step.2 with
    | none => rest
    | some t => (rest.1, t :: rest.2)

/-- The extracted fragment a raw delta contributes to the concatenated
text (`none` contributes nothing). -/
def extractedOrEmpty : Option Str → Str
  | none => []
  | some s => s

/-- Concatenation of all extracted fragments of the raw delta sequence. -/
def joinFrags (ds : List (Option Str)) : Str :=
  (ds.map extractedOrEmpty).flatten

/-- Applies `trimStart` to the first non-empty extracted fragment of the
sequence and leaves everything else untouched. -/
def trimFirstNonEmpty : List (Option Str) → List (Option Str)
  | [] => []
  | none :: ds => none :: trimFirstNonEmpty ds
  | some s :: ds =>
    if s.isEmpty then some s :: trimFirstNonEmpty ds
    else some (trimStart s) :: ds

/-- The specification-side description of the trimming pipeline: trim the
leading whitespace of the first non-empty fragment, keep all internal
whitespace, and drop the trailing whitespace only at the end of the
stream. -/
def specTrimmedConcat (ds : List (Option Str)) : Str :=
  trimEnd (joinFrags (trimFirstNonEmpty ds))

/-- The value the `text` promise of `streamText` resolves to: `onDone`
runs after the stream has fully drained (executeStreamCall is not part of
the sources; per the spec it invokes the caller-supplied `onDone` hook on
normal completion) and calls `resolveText(accumulatedText)`. -/
def streamTextResolvedText (trimWhitespace : Option Bool) (ds : List (Option Str)) : Str :=
  (runStream (shouldTrimWhitespace trimWhitespace) initialTrimState ds).1.accumulatedText

lemma trimEnd_append_trailingWS (s : Str) : trimEnd s ++ trailingWS s = s := by
  unfold trimEnd trailingWS
  rw [← List.reverse_append, List.takeWhile_append_dropWhile, List.reverse_reverse]

lemma allWS_trailingWS (s : Str) : ∀ c ∈ trailingWS s, isWS c := by
  intro c hc
  exact List.mem_rtakeWhile_imp (p := isWS) (l := s) hc

lemma trimEnd_append_ws (a w : Str) (hw : ∀ c ∈ w, isWS c) :
    trimEnd (a ++ w) = trimEnd a := by
  unfold trimEnd
  rw [List.reverse_append, List.dropWhile_append_of_pos]
  intro c hc
  exact hw c (List.mem_reverse.mp hc)

lemma trimEnd_idem (s : Str) : trimEnd (trimEnd s) = trimEnd s :=
  List.rdropWhile_idempotent isWS s

lemma trimEnd_append_right (a c : Str) (hc : trimEnd c = c) (hne : c ≠ []) :
    trimEnd (a ++ c) = a ++ c := by
  have hc' : List.rdropWhile isWS c = c := hc
  have h := List.rdropWhile_eq_self_iff.mp hc' hne
  show List.rdropWhile isWS (a ++ c) = a ++ c
  rw [List.rdropWhile_eq_self_iff]
  intro hl
  rwa [List.getLast_append_of_ne_nil hne]

lemma trimEnd_append_trimEnd (a b : Str) (ha : trimEnd a = a) :
    trimEnd (a ++ trimEnd b) = a ++ trimEnd b := by
  by_cases h : trimEnd b = []
  · rw [h, List.append_nil]; exact ha
  · exact trimEnd_append_right a (trimEnd b) (trimEnd_idem b) h

/-- `accumulatedText` grows by exactly the fragments handed back to
`executeStreamCall`: the aggregate value and the emitted stream never
diverge. -/
lemma runStream_accumulated (shouldTrim : Bool) (ds : List (Option Str)) :
    ∀ st : TrimState,
      (runStream shouldTrim st ds).1.accumulatedText
        = st.accumulatedText ++ ((runStream shouldTrim st ds).2).flatten := by
  induction ds with
  | nil => intro st; simp [runStream]
  | cons d ds ih =>
    intro st
    cases d with
    | none => simpa [runStream, processDelta] using ih st
    | some s =>
      by_cases hs : s.isEmpty
      · simpa [runStream, processDelta, hs] using ih st
      · simp only [runStream, processDelta, hs, if_neg, Bool.false_eq_true,
          not_false_eq_true, List.flatten_cons]
        rw [ih]
        simp [List.append_assoc]

/-- Invariant of the trimming state machine after the first non-empty
fragment: the withheld `trailingWhitespace` is all whitespace, the
accumulated text carries no trailing whitespace, and accumulated text plus
withheld whitespace equals everything processed so far. -/
lemma runStream_trim_steady (ds : List (Option Str)) :
    ∀ tw acc : Str, (∀ c ∈ tw, isWS c) → trimEnd acc = acc →
      (∀ c ∈ (runStream true ⟨false, tw, acc⟩ ds).1.trailingWhitespace, isWS c) ∧
      trimEnd (runStream true ⟨false, tw, acc⟩ ds).1.accumulatedText
        = (runStream true ⟨false, tw, acc⟩ ds).1.accumulatedText ∧
      (runStream true ⟨false, tw, acc⟩ ds).1.accumulatedText
          ++ (runStream true ⟨false, tw, acc⟩ ds).1.trailingWhitespace
        = acc ++ tw ++ joinFrags ds := by
  induction ds with
  | nil =>
    intro tw acc htw hacc
    refine ⟨htw, hacc, ?_⟩
    simp [runStream, joinFrags, List.append_assoc]
  | cons d ds ih =>
    intro tw acc htw hacc
    cases d with
    | none =>
      have h := ih tw acc htw hacc
      simp only [runStream, processDelta] at *
      refine ⟨h.1, h.2.1, ?_⟩
      rw [h.2.2]
      simp [joinFrags, extractedOrEmpty]
    | some s =>
      by_cases hs : s.isEmpty
      · have h := ih tw acc htw hacc
        have hsnil : s = [] := List.isEmpty_iff.mp hs
        simp only [runStream, processDelta, hs, if_true] at *
        refine ⟨h.1, h.2.1, ?_⟩
        rw [h.2.2]
        simp [joinFrags, extractedOrEmpty, hsnil]
      · have htw' : ∀ c ∈ trailingWS (tw ++ s), isWS c := allWS_trailingWS (tw ++ s)
        have hacc' : trimEnd (acc ++ trimEnd (tw ++ s)) = acc ++ trimEnd (tw ++ s) :=
          trimEnd_append_trimEnd acc (tw ++ s) hacc
        have h := ih (trailingWS (tw ++ s)) (acc ++ trimEnd (tw ++ s)) htw' hacc'
        simp only [runStream, processDelta, hs, if_neg, Bool.false_eq_true,
          not_false_eq_true, if_true] at *
        refine ⟨h.1, h.2.1, ?_⟩
        rw [h.2.2]
        simp only [joinFrags, List.map_cons, List.flatten_cons, extractedOrEmpty]
        simp only [List.append_assoc]
        rw [← List.append_assoc (trimEnd (tw ++ s)) (trailingWS (tw ++ s)),
          trimEnd_append_trailingWS]
        simp [List.append_assoc]

/-- Running the trimming state machine from its initial state: the
accumulated text carries no trailing whitespace, the withheld whitespace
is whitespace, and together they make up the raw concatenation with only
the leading whitespace of the first non-empty fragment removed. -/
lemma runStream_trim_initial (ds : List (Option Str)) :
    (∀ c ∈ (runStream true initialTrimState ds).1.trailingWhitespace, isWS c) ∧
    trimEnd (runStream true initialTrimState ds).1.accumulatedText
      = (runStream true initialTrimState ds).1.accumulatedText ∧
    (runStream true initialTrimState ds).1.accumulatedText
        ++ (runStream true initialTrimState ds).1.trailingWhitespace
      = joinFrags (trimFirstNonEmpty ds) := by
  induction ds with
  | nil =>
    refine ⟨by simp [runStream, initialTrimState], ?_, ?_⟩ <;>
      simp [runStream, initialTrimState, trimEnd, joinFrags, trimFirstNonEmpty]
  | cons d ds ih =>
    cases d with
    | none =>
      simp only [runStream, processDelta, initialTrimState] at *
      refine ⟨ih.1, ih.2.1, ?_⟩
      rw [ih.2.2]
      simp [trimFirstNonEmpty, joinFrags, extractedOrEmpty]
    | some s =>
      by_cases hs : s.isEmpty
      · have hsnil : s = [] := List.isEmpty_iff.mp hs
        simp only [runStream, processDelta, initialTrimState, hs, if_true] at *
        refine ⟨ih.1, ih.2.1, ?_⟩
        rw [ih.2.2]
        simp [trimFirstNonEmpty, joinFrags, extractedOrEmpty, hsnil, hs]
      · have h := runStream_trim_steady ds (trailingWS (trimStart s)) (trimEnd (trimStart s))
          (allWS_trailingWS (trimStart s)) (trimEnd_idem (trimStart s))
        simp only [runStream, processDelta, initialTrimState, hs, if_neg, Bool.false_eq_true,
          not_false_eq_true, if_true, List.nil_append] at h ⊢
        refine ⟨h.1, h.2.1, ?_⟩
        rw [h.2.2]
        simp only [trimFirstNonEmpty, hs, if_neg, Bool.false_eq_true, not_false_eq_true,
          joinFrags, List.map_cons, List.flatten_cons, extractedOrEmpty]
        rw [List.append_assoc, ← List.append_assoc (trimEnd (trimStart s)),
          trimEnd_append_trailingWS]

lemma shouldTrim_of_ne_false (tw : Option Bool) (h : tw ≠ some false) :
    shouldTrimWhitespace tw = true := by
  cases tw with
  | none => rfl
  | some b =>
    cases b with
    | false => exact absurd rfl h
    | true => rfl

lemma runStream_flatten_eq_accumulated (shouldTrim : Bool) (ds : List (Option Str)) :
    ((runStream shouldTrim initialTrimState ds).2).flatten
      = (runStream shouldTrim initialTrimState ds).1.accumulatedText := by
  rw [runStream_accumulated]
  simp [initialTrimState]

/-- **C1**: with trimming enabled (`trimWhitespace` not `false`), the
fragments emitted by `streamText` concatenate to the raw concatenation of
the extracted fragments with leading whitespace removed only from the
first non-empty extracted fragment and trailing whitespace dropped only at
the end of the stream (internal whitespace preserved, withheld trailing
whitespace being prefixed onto the next fragment); in particular the input
fragments `[" Hello", " world "]` emit `["Hello", " world"]`,
concatenating to `"Hello world"`. -/
theorem streamText_whitespace_trimming (trimWhitespace : Option Bool)
    (h : trimWhitespace ≠ some false) (ds : List (Option Str)) :
    ((runStream (shouldTrimWhitespace trimWhitespace) initialTrimState ds).2).flatten
      = specTrimmedConcat ds ∧
    (runStream (shouldTrimWhitespace trimWhitespace) initialTrimState
        [some " Hello".data, some " world ".data]).2
      = ["Hello".data, " world".data] ∧
    ((runStream (shouldTrimWhitespace trimWhitespace) initialTrimState
        [some " Hello".data, some " world ".data]).2).flatten
      = "Hello world".data := by
  rw [shouldTrim_of_ne_false trimWhitespace h]
  refine ⟨?_, by decide, by decide⟩
  have h1 := runStream_trim_initial ds
  rw [runStream_flatten_eq_accumulated, specTrimmedConcat, ← h1.2.2,
    trimEnd_append_ws _ _ h1.1, h1.2.1]

theorem streamText_whitespace_trimming_witness :
    ((runStream (shouldTrimWhitespace none) initialTrimState
        [some " Hello".data, some " world ".data]).2).flatten
      = specTrimmedConcat [some " Hello".data, some " world ".data] ∧
    (runStream (shouldTrimWhitespace none) initialTrimState
        [some " Hello".data, some " world ".data]).2
      = ["Hello".data, " world".data] :=
  ⟨(streamText_whitespace_trimming none (by decide)
      [some " Hello".data, some " world ".data]).1,
   (streamText_whitespace_trimming none (by decide)
      [some " Hello".data, some " world ".data]).2.1⟩

/-- **C2**: after the stream is fully drained, the `text` promise of
`streamText` (resolved by `onDone` with `accumulatedText`) holds exactly
the concatenation of the fragments that were emitted on `textStream`, for
every trimming setting and every extracted delta sequence. -/
theorem streamText_text_promise_matches_stream (trimWhitespace : Option Bool)
    (ds : List (Option Str)) :
    streamTextResolvedText trimWhitespace ds
      = ((runStream (shouldTrimWhitespace trimWhitespace) initialTrimState ds).2).flatten :=
  (runStream_flatten_eq_accumulated (shouldTrimWhitespace trimWhitespace) ds).symm

/-- Modelled from the spec: the `AsyncQueue` implementation itself is not
among the sources (only its callers are). Per the spec it is an ordered
buffer of pending items plus a closed flag: `push(item)` appends to the
tail and is ignored after `close()`; `close()` marks that no more items
will arrive and is idempotent. -/
structure AsyncQueue (T : Type) where
  values : List T
  closed : Bool
deriving Repr, DecidableEq

def AsyncQueue.empty (T : Type) : AsyncQueue T := ⟨[], false⟩

def AsyncQueue.push {T : Type} (q : AsyncQueue T) (item : T) : AsyncQueue T :=
  if q.closed then q else ⟨q.values ++ [item], false⟩

def AsyncQueue.close {T : Type} (q : AsyncQueue T) : AsyncQueue T :=
  ⟨q.values, true⟩

def AsyncQueue.pushAll {T : Type} (q : AsyncQueue T) (items : List T) : AsyncQueue T :=
  items.foldl AsyncQueue.push q

/-- Modelled from the spec: what a fresh consumer obtained via the async
iteration entry point observes — for a closed queue, the buffered items in
push order followed by normal termination (`some`); for a still-open queue
the consumer would suspend awaiting more items instead of terminating
(`none`). -/
def AsyncQueue.drained {T : Type} (q : AsyncQueue T) : Option (List T) :=
  if q.closed then some q.values else none

lemma AsyncQueue.pushAll_open {T : Type} (items : List T) :
    ∀ vs : List T, AsyncQueue.pushAll ⟨vs, false⟩ items = ⟨vs ++ items, false⟩ := by
  induction items with
  | nil => intro vs; simp [AsyncQueue.pushAll]
  | cons x xs ih =>
    intro vs
    simp only [AsyncQueue.pushAll, List.foldl_cons] at *
    rw [show AsyncQueue.push ⟨vs, false⟩ x = ⟨vs ++ [x], false⟩ from rfl, ih]
    simp

/-- **C5**: pushing `N` items into a fresh `AsyncQueue` and then closing
it lets a fresh consumer observe exactly those items, in push order,
followed by normal termination. -/
theorem asyncQueue_push_then_close_drains_in_order {T : Type} (items : List T) :
    (((AsyncQueue.empty T).pushAll items).close).drained = some items := by
  show ((AsyncQueue.pushAll ⟨[], false⟩ items).close).drained = some items
  rw [AsyncQueue.pushAll_open items []]
  simp [AsyncQueue.close, AsyncQueue.drained]

/-- The input normalization at the top of `streamSpeech` (streamSpeech.ts
lines 58-68): a plain-string input is turned into a fresh `AsyncQueue`
that receives the single string and is closed immediately; an async
iterable input is passed through unchanged. -/
def normalizeSpeechInput {σ : Type} : Str ⊕ σ → AsyncQueue Str ⊕ σ
  | Sum.inl text => Sum.inl (((AsyncQueue.empty Str).push text).close)
  | Sum.inr textStream => Sum.inr textStream

/-- **C7**: a plain-string input to `streamSpeech` is normalized, before
entering the streaming pipeline, into an `AsyncQueue` holding exactly that
one string and already closed, while an async iterable input takes the
same code path unchanged. -/
theorem streamSpeech_normalizes_string_input {σ : Type} (text : Str) (s : σ) :
    normalizeSpeechInput (σ := σ) (Sum.inl text)
        = Sum.inl { values := [text], closed := true } ∧
    normalizeSpeechInput (Sum.inr s) = Sum.inr s :=
  ⟨rfl, rfl⟩

/-- `FunctionOptions & { fullResponse?: boolean }` — only the field that
the return shape of `streamText`/`streamSpeech` depends on is modelled;
the outer `Option` models the optional `options` argument and the inner
one the optional `fullResponse` property. -/
structure StreamOptions where
  fullResponse : Option Bool
deriving Repr, DecidableEq

/-- JS truthiness of `options?.fullResponse`: truthy exactly when the
options object is present and carries `fullResponse: true`. -/
def optionsFullResponse : Option StreamOptions → Bool
  | none => false
  | some o => o.fullResponse.getD false

/-- The `fullResponse` object returned by `executeStreamCall` (the value
stream paired with the metadata handle). -/
structure StreamCallResult (V M : Type) where
  value : V
  metadata : M

/-- The two return shapes of `streamText`: the bare stream, or the
`{textStream, text, metadata}` bundle. -/
inductive StreamTextReturn (V T M : Type) where
  | plain (stream : V)
  | full (textStream : V) (text : T) (metadata : M)

/-- The two return shapes of `streamSpeech`: the bare stream, or the
`{speechStream, metadata}` bundle. -/
inductive StreamSpeechReturn (V M : Type) where
  | plain (stream : V)
  | full (speechStream : V) (metadata : M)

/-- The final return expression of `streamText` (streamSpeech.ts lines
204-210). -/
def streamTextReturn {V T M : Type} (options : Option StreamOptions)
    (fullResponse : StreamCallResult V M) (textPromise : T) : StreamTextReturn V T M :=
  if optionsFullResponse options then
    StreamTextReturn.full fullResponse.value textPromise fullResponse.metadata
  else
    StreamTextReturn.plain fullResponse.value

/-- The final return expression of `streamSpeech` (streamSpeech.ts lines
80-85). -/
def streamSpeechReturn {V M : Type} (options : Option StreamOptions)
    (fullResponse : StreamCallResult V M) : StreamSpeechReturn V M :=
  if optionsFullResponse options then
    StreamSpeechReturn.full fullResponse.value fullResponse.metadata
  else
    StreamSpeechReturn.plain fullResponse.value

/-- **C8**: `streamText` and `streamSpeech` return the bare async iterable
exactly when `options.fullResponse` is falsy or absent, and the bundle
(`{textStream, text, metadata}` resp. `{speechStream, metadata}`) exactly
when `options.fullResponse` is `true`. -/
theorem stream_functions_dual_return_shape {V T M : Type}
    (options : Option StreamOptions) (r : StreamCallResult V M) (textPromise : T) :
    (optionsFullResponse options = true
        ↔ ∃ o, options = some o ∧ o.fullResponse = some true) ∧
    (streamTextReturn options r textPromise
        = StreamTextReturn.full r.value textPromise r.metadata
      ↔ optionsFullResponse options = true) ∧
    (streamTextReturn options r textPromise = StreamTextReturn.plain r.value
      ↔ optionsFullResponse options = false) ∧
    (streamSpeechReturn options r = StreamSpeechReturn.full r.value r.metadata
      ↔ optionsFullResponse options = true) ∧
    (streamSpeechReturn options r = StreamSpeechReturn.plain r.value
      ↔ optionsFullResponse options = false) := by
  constructor
  · constructor
    · intro h
      match options with
      | none => exact absurd h (by simp [optionsFullResponse])
      | some o =>
        refine ⟨o, rfl, ?_⟩
        match ho : o.fullResponse with
        | none => rw [optionsFullResponse, ho] at h; exact absurd h (by simp)
        | some b =>
          rw [optionsFullResponse, ho] at h
          simp at h
          rw [h]
    · rintro ⟨o, rfl, ho⟩
      simp [optionsFullResponse, ho]
  · cases hb : optionsFullResponse options <;>
      simp [streamTextReturn, streamSpeechReturn, hb]

/-- The outcome of a `RetryFunction` as consumed by `safeGenerate`
(generate.ts): `{status: "success", result, tries}`,
`{status: "failure", error}` or `{status: "abort"}`. -/
inductive RetryOutcome (R E : Type) where
  | success (result : R) (tries : Nat)
  | failure (error : E)
  | abort
deriving Repr

/-- The result union of `safeGenerate`:
`{ok: true, result} | {ok: false, isAborted, error?}`. -/
inductive SafeGenerateResult (OUT E : Type) where
  | success (result : OUT)
  | failed (error : E)
  | aborted

/-- The `ok` discriminant of the `safeGenerate` result union. -/
def SafeGenerateResult.ok {OUT E : Type} : SafeGenerateResult OUT E → Bool
  | .success _ => true
  | .failed _ => false
  | .aborted => false

/-- The `isAborted` field of the `safeGenerate` result (only the
`ok: false` variants carry it; the successful variant reads as not
aborted). -/
def SafeGenerateResult.isAborted {OUT E : Type} : SafeGenerateResult OUT E → Bool
  | .success _ => false
  | .failed _ => false
  | .aborted => true

/-- The optional `error` field of the `safeGenerate` result. -/
def SafeGenerateResult.errorValue {OUT E : Type} : SafeGenerateResult OUT E → Option E
  | .success _ => none
  | .failed e => some e
  | .aborted => none

/-- The `status` field of the `generate-end` event. -/
inductive GenerateStatus where
  | success
  | failure
  | abort
deriving Repr, DecidableEq

/-- Status reported on the call-end event for a given outcome. -/
def SafeGenerateResult.status {OUT E : Type} : SafeGenerateResult OUT E → GenerateStatus
  | .success _ => .success
  | .failed _ => .failure
  | .aborted => .abort

/-- Observable actions of one `safeGenerate` invocation, in order: the
`generate-start` event (`onCallStart` / `context.onCallStart`), the
retry-wrapped `model.generate` invocation, and the `generate-end` event
carrying its `status` field. -/
inductive GenerateTraceItem where
  | callStart
  | modelInvocation
  | callEnd (status : GenerateStatus)
deriving Repr, DecidableEq

/-- Embedding of `safeGenerate` (generate.ts lines 75-200), with the
already-awaited retry outcome as input: emits the call-start event, runs
the retry-wrapped model call, then branches on the outcome status,
emitting exactly one call-end event and returning the matching result.
Returns the trace of observable actions together with the result. -/
def safeGenerate {R G OUT E : Type} (retryOutcome : RetryOutcome R E)
    (extractOutput : R → G) (processOutput : G → OUT) :
    List GenerateTraceItem × SafeGenerateResult OUT E :=
  let beforeBranch := [GenerateTraceItem.callStart, GenerateTraceItem.modelInvocation]
  match retryOutcome with
  | .failure _e =>
    (beforeBranch ++ [GenerateTraceItem.callEnd GenerateStatus.failure],
     SafeGenerateResult.failed _e)
  | .abort =>
    (beforeBranch ++ [GenerateTraceItem.callEnd GenerateStatus.abort],
     SafeGenerateResult.aborted)
  | .success r _tries =>
    (beforeBranch ++ [GenerateTraceItem.callEnd GenerateStatus.success],
     SafeGenerateResult.success (processOutput (extractOutput r)))

/-- What `generate` throws: `AbortError` for an aborted result, the
carried error otherwise. -/
inductive GenerateThrown (E : Type) where
  | abortError
  | thrown (error : E)
deriving Repr

/-- Embedding of `generate` (generate.ts lines 32-43) applied to the
`safeGenerate` result: throw `AbortError` when `!result.ok` and
`result.isAborted`, rethrow `result.error` when `!result.ok` otherwise,
and return `result.result` when `result.ok`. -/
def generateFromSafe {OUT E : Type} (result : SafeGenerateResult OUT E) :
    Except (GenerateThrown E) OUT :=
  match result with
  | .aborted => Except.error GenerateThrown.abortError
  | .failed e => Except.error (GenerateThrown.thrown e)
  | .success r => Except.ok r

/-- **C4**: the three terminal retry outcomes map to mutually exclusive,
distinguishable results: abort yields `ok: false, isAborted: true` with no
error (and `generate` throws `AbortError`), failure yields `ok: false,
isAborted: false` carrying exactly the retry error, and only success
yields `ok: true`; an abort is never reported as a failure. -/
theorem generate_retry_outcome_mapping {R G OUT E : Type}
    (retryOutcome : RetryOutcome R E) (extractOutput : R → G) (processOutput : G → OUT) :
    ((safeGenerate retryOutcome extractOutput processOutput).2.ok = true
        ↔ ∃ r tries, retryOutcome = RetryOutcome.success r tries) ∧
    ((safeGenerate retryOutcome extractOutput processOutput).2.isAborted = true
        ↔ retryOutcome = RetryOutcome.abort) ∧
    (match retryOutcome with
     | RetryOutcome.abort =>
        (safeGenerate retryOutcome extractOutput processOutput).2
            = SafeGenerateResult.aborted ∧
        (safeGenerate retryOutcome extractOutput processOutput).2.errorValue = none ∧
        generateFromSafe (safeGenerate retryOutcome extractOutput processOutput).2
            = Except.error GenerateThrown.abortError
     | RetryOutcome.failure e =>
        (safeGenerate retryOutcome extractOutput processOutput).2
            = SafeGenerateResult.failed e ∧
        (safeGenerate retryOutcome extractOutput processOutput).2.errorValue = some e ∧
        generateFromSafe (safeGenerate retryOutcome extractOutput processOutput).2
            = Except.error (GenerateThrown.thrown e)
     | RetryOutcome.success r _tries =>
        (safeGenerate retryOutcome extractOutput processOutput).2
            = SafeGenerateResult.success (processOutput (extractOutput r)) ∧
        generateFromSafe (safeGenerate retryOutcome extractOutput processOutput).2
            = Except.ok (processOutput (extractOutput r))) := by
  cases retryOutcome <;>
    simp [safeGenerate, generateFromSafe, SafeGenerateResult.ok,
      SafeGenerateResult.isAborted, SafeGenerateResult.errorValue]

/-- **C6**: every `safeGenerate` invocation emits exactly one call-start
event before the model is invoked and exactly one call-end event after the
outcome is known, and the end event's status agrees with the result
returned to the caller. -/
theorem generate_call_event_ordering {R G OUT E : Type}
    (retryOutcome : RetryOutcome R E) (extractOutput : R → G) (processOutput : G → OUT) :
    (safeGenerate retryOutcome extractOutput processOutput).1
        = [GenerateTraceItem.callStart, GenerateTraceItem.modelInvocation,
           GenerateTraceItem.callEnd
             (safeGenerate retryOutcome extractOutput processOutput).2.status] ∧
    ((safeGenerate retryOutcome extractOutput processOutput).1.count
        GenerateTraceItem.callStart = 1) ∧
    ((safeGenerate retryOutcome extractOutput processOutput).1.countP
        (fun item => match item with
          | GenerateTraceItem.callEnd _ => true
          | _ => false) = 1) := by
  cases retryOutcome <;>
    simp [safeGenerate, SafeGenerateResult.status, List.count_cons, List.countP_cons]

/-- A streamed delta as pushed onto the provider queue
(`Delta<T>`): either a successful incremental value or a terminal
error. -/
inductive Delta (T E : Type) where
  | delta (deltaValue : T)
  | error (error : E)
deriving Repr, DecidableEq

/-- A parsed llama.cpp stream chunk (`llamaCppTextStreamChunkSchema`):
only `content` and the `stop` discriminator matter for queueing; the final
full-response fields are not inspected by the queueing loop. -/
structure LlamaCppChunk where
  content : Str
  stop : Bool
deriving Repr, DecidableEq

/-- The loop body of `createLlamaCppFullDeltaIterableQueue`
(LlamaCppCompletionModel, lines 509-543): each event-source message is
parsed (`Except.error` when `parseJSON` throws); a parsed chunk is pushed
as a delta, a `stop` chunk additionally closes the queue; the first parse
failure is caught, pushed as a single error element, and closes the queue,
skipping all remaining events. -/
def processLlamaCppEvents {E : Type} :
    AsyncQueue (Delta LlamaCppChunk E) → List (Except E LlamaCppChunk) →
      AsyncQueue (Delta LlamaCppChunk E)
  | q, [] => q
  | q, Except.error e :: _rest => (q.push (Delta.error e)).close
  | q, Except.ok c :: rest =>
    let q1 := q.push (Delta.delta c)
    processLlamaCppEvents (if c.stop then q1.close else q1) rest

/-- `createLlamaCppFullDeltaIterableQueue` run over the whole parsed
event-source stream, starting from a fresh queue. -/
def createLlamaCppFullDeltaIterableQueue {E : Type}
    (events : List (Except E LlamaCppChunk)) : AsyncQueue (Delta LlamaCppChunk E) :=
  processLlamaCppEvents (AsyncQueue.empty (Delta LlamaCppChunk E)) events

/-- Modelled from the spec: `callWithRetryAndThrottle` (not among the
sources; only its caller `LlamaCppCompletionModel.callAPI` is) wraps only
the single connection-establishing HTTP call in throttle and retry and
returns one terminal outcome — success with attempt count, failure, or
abort. Its already-settled outcome for the initial call (carrying the
parsed event-source stream on success) is taken here as a parameter.
`doStreamText` then adapts the response stream into the delta queue with
no retry layer around the streaming itself. -/
def llamaCppDoStreamText {E : Type}
    (connectionOutcome : RetryOutcome (List (Except E LlamaCppChunk)) E) :
    RetryOutcome (AsyncQueue (Delta LlamaCppChunk E)) E :=
  match connectionOutcome with
  | RetryOutcome.success events tries =>
    RetryOutcome.success (createLlamaCppFullDeltaIterableQueue events) tries
  | RetryOutcome.failure e => RetryOutcome.failure e
  | RetryOutcome.abort => RetryOutcome.abort

/-- The `tries` attempt count reported by a retry outcome. -/
def retryTries {A E : Type} : RetryOutcome A E → Option Nat
  | RetryOutcome.success _ tries => some tries
  | RetryOutcome.failure _ => none
  | RetryOutcome.abort => none

lemma processLlamaCppEvents_ok_then_error {E : Type} (e : E) :
    ∀ (pfx : List LlamaCppChunk), (∀ c ∈ pfx, c.stop = false) →
      ∀ (rest : List (Except E LlamaCppChunk)) (vs : List (Delta LlamaCppChunk E)),
        processLlamaCppEvents ⟨vs, false⟩ (pfx.map Except.ok ++ Except.error e :: rest)
          = ⟨vs ++ (pfx.map (Delta.delta) ++ [Delta.error e]), true⟩ := by
  intro pfx
  induction pfx with
  | nil =>
    intro _ rest vs
    simp [processLlamaCppEvents, AsyncQueue.push, AsyncQueue.close]
  | cons c cs ih =>
    intro hstop rest vs
    have hc : c.stop = false := hstop c (List.mem_cons_self c cs)
    have hcs : ∀ x ∈ cs, x.stop = false := fun x hx => hstop x (List.mem_cons_of_mem c hx)
    simp only [List.map_cons, List.cons_append, processLlamaCppEvents, hc,
      AsyncQueue.push, if_neg, Bool.false_eq_true, not_false_eq_true, if_false]
    have h := ih hcs rest (vs ++ [Delta.delta c])
    simpa [List.append_assoc] using h

/-- **C3**: only the initial connection-establishing call goes through the
retry/throttle layer; a malformed payload mid-stream is never retried — it
surfaces as a single terminal error element after the successfully parsed
deltas, the queue is then closed, and the reported attempt count is the
initial connection's, independent of the streamed events. -/
theorem llamaCpp_midstream_error_not_retried {E : Type}
    (pfx : List LlamaCppChunk) (hpfx : ∀ c ∈ pfx, c.stop = false) (e : E)
    (rest : List (Except E LlamaCppChunk)) (tries : Nat) :
    llamaCppDoStreamText
        (RetryOutcome.success (pfx.map Except.ok ++ Except.error e :: rest) tries)
      = RetryOutcome.success
          { values := pfx.map Delta.delta ++ [Delta.error e], closed := true } tries ∧
    (∀ otherEvents : List (Except E LlamaCppChunk),
      retryTries (llamaCppDoStreamText (RetryOutcome.success otherEvents tries))
        = some tries) := by
  constructor
  · simp only [llamaCppDoStreamText, createLlamaCppFullDeltaIterableQueue, AsyncQueue.empty]
    rw [processLlamaCppEvents_ok_then_error e pfx hpfx rest []]
    simp
  · intro otherEvents
    rfl

theorem llamaCpp_midstream_error_not_retried_witness :
    llamaCppDoStreamText
        (RetryOutcome.success
          [Except.ok ⟨"a".data, false⟩, Except.error 7, Except.ok ⟨"b".data, false⟩] 2)
      = RetryOutcome.success
          { values := [Delta.delta ⟨"a".data, false⟩, Delta.error 7], closed := true } 2 ∧
    retryTries (llamaCppDoStreamText
        (RetryOutcome.success ([] : List (Except Nat LlamaCppChunk)) 2)) = some 2 := by
  have h := llamaCpp_midstream_error_not_retried [⟨"a".data, false⟩] (by decide) 7
    [Except.ok ⟨"b".data, false⟩] 2
  exact ⟨h.1, h.2 []⟩

/-- `UrlParts` of `BaseUrlApiConfiguration`. -/
structure UrlParts where
  protocol : Str
  host : Str
  port : Str
  path : Str
deriving Repr, DecidableEq

/-- `basePath.endsWith("/")`. -/
def strEndsWithSlash (s : Str) : Bool := s.getLast? = some '/'

/-- `path.startsWith("/")`. -/
def strStartsWithSlash (s : Str) : Bool := s.head? = some '/'

/-- `BaseUrlApiConfiguration.assembleUrl` (part_002): drop one trailing
slash from the configured base path, prepend a slash to the path when it
has none, and concatenate protocol, host, port, base path and path. -/
def assembleUrl (cfg : UrlParts) (path : Str) : Str :=
  let basePath := if strEndsWithSlash cfg.path then cfg.path.dropLast else cfg.path
  let path1 := if strStartsWithSlash path then path else '/' :: path
  cfg.protocol ++ "://".data ++ cfg.host ++ ":".data ++ cfg.port ++ basePath ++ path1

def isSlash (c : Char) : Bool := c = '/'

/-- Length of the run of slashes a string ends with. -/
def trailingSlashRun (s : Str) : Nat := (s.reverse.takeWhile isSlash).length

/-- Length of the run of slashes a string starts with. -/
def leadingSlashRun (s : Str) : Nat := (s.takeWhile isSlash).length

/-- The number of consecutive slash characters sitting between base path
and path in the assembled URL: the trailing slash run of the stripped base
path plus the leading slash run of the slash-normalized path. -/
def joinSlashRun (cfg : UrlParts) (path : Str) : Nat :=
  trailingSlashRun (if strEndsWithSlash cfg.path then cfg.path.dropLast else cfg.path)
    + leadingSlashRun (if strStartsWithSlash path then path else '/' :: path)

lemma leadingSlashRun_zero_of_head_ne (l : Str) (h : l.head? ≠ some '/') :
    leadingSlashRun l = 0 := by
  cases l with
  | nil => rfl
  | cons a t =>
    have ha : isSlash a = false := by
      by_contra hne
      have : a = '/' := by
        have := eq_true_of_ne_false hne
        simpa [isSlash] using this
      exact h (by simp [this])
    simp [leadingSlashRun, List.takeWhile_cons, ha]

lemma trailingSlashRun_zero_of_getLast_ne (l : Str) (h : l.getLast? ≠ some '/') :
    trailingSlashRun l = 0 := by
  have := leadingSlashRun_zero_of_head_ne l.reverse (by rwa [List.head?_reverse])
  simpa [leadingSlashRun, trailingSlashRun] using this

/-- **C9** counterexample: as literally stated the claim fails — with the
configured base path `"/v1"` (which does not end in two or more slashes)
and the path `"//x"`, the assembled URL carries two consecutive slashes at
the join point, not exactly one. -/
theorem assembleUrl_double_slash_counterexample :
    trailingSlashRun ("/v1".data) ≤ 1 ∧
    joinSlashRun ⟨"http".data, "localhost".data, "8080".data, "/v1".data⟩ ("//x".data) = 2 ∧
    assembleUrl ⟨"http".data, "localhost".data, "8080".data, "/v1".data⟩ ("//x".data)
      = "http://localhost:8080/v1//x".data := by
  decide

/-- **C9** (amended): `assembleUrl` normalizes the slash at the join
point: a base path ending in exactly one slash assembles the same URL as
with that slash removed; a path without a leading slash assembles the same
URL as with one prefixed; and the assembled URL has exactly one slash
between base path and path, provided the base path does not end in two or
more slashes and the path does not start with two or more slashes. -/
theorem assembleUrl_join_normalization :
    (∀ (cfg : UrlParts) (bp p : Str), strEndsWithSlash bp = false →
        assembleUrl { cfg with path := bp ++ ['/'] } p
          = assembleUrl { cfg with path := bp } p) ∧
    (∀ (cfg : UrlParts) (p : Str), strStartsWithSlash p = false →
        assembleUrl cfg p = assembleUrl cfg ('/' :: p)) ∧
    (∀ (cfg : UrlParts) (p : Str), trailingSlashRun cfg.path ≤ 1 →
        leadingSlashRun p ≤ 1 → joinSlashRun cfg p = 1) := by
  refine ⟨?_, ?_, ?_⟩
  · intro cfg bp p hbp
    have h1 : strEndsWithSlash (bp ++ ['/']) = true := by
      simp [strEndsWithSlash, List.getLast?_concat]
    simp [assembleUrl, h1, hbp, List.dropLast_concat]
  · intro cfg p hp
    have h1 : strStartsWithSlash ('/' :: p) = true := by
      simp [strStartsWithSlash]
    simp [assembleUrl, hp, h1]
  · intro cfg p hbase hpath
    have hb : trailingSlashRun
        (if strEndsWithSlash cfg.path then cfg.path.dropLast else cfg.path) = 0 := by
      cases hE : strEndsWithSlash cfg.path with
      | false =>
        simp only [if_neg, Bool.false_eq_true, not_false_eq_true, if_false]
        refine trailingSlashRun_zero_of_getLast_ne cfg.path ?_
        intro h
        rw [strEndsWithSlash, h] at hE
        simp at hE
      | true =>
        simp only [if_true]
        have hlast : cfg.path.getLast? = some '/' := by
          rw [strEndsWithSlash] at hE
          exact of_decide_eq_true hE
        have hrev : cfg.path.reverse.head? = some '/' := by
          rwa [List.head?_reverse]
        cases hr : cfg.path.reverse with
        | nil => rw [hr] at hrev; simp at hrev
        | cons a t =>
          rw [hr] at hrev
          have ha : a = '/' := by simpa using hrev
          have htail : cfg.path.dropLast.reverse = t := by
            rw [← List.tail_reverse, hr]
            rfl
          have hlen : (t.takeWhile isSlash).length = 0 := by
            have : trailingSlashRun cfg.path = 1 + (t.takeWhile isSlash).length := by
              rw [trailingSlashRun, hr, ha]
              simp [List.takeWhile_cons, isSlash]
              omega
            omega
          rw [trailingSlashRun, htail, hlen]
    have hp1 : leadingSlashRun
        (if strStartsWithSlash p then p else '/' :: p) = 1 := by
      cases hS : strStartsWithSlash p with
      | false =>
        simp only [if_neg, Bool.false_eq_true, not_false_eq_true, if_false]
        have hhead : p.head? ≠ some '/' := by
          intro h
          rw [strStartsWithSlash, h] at hS
          simp at hS
        have h0 := leadingSlashRun_zero_of_head_ne p hhead
        rw [leadingSlashRun] at h0 ⊢
        simp [List.takeWhile_cons, isSlash, h0]
      | true =>
        simp only [if_true]
        have hhead : p.head? = some '/' := by
          rw [strStartsWithSlash] at hS
          exact of_decide_eq_true hS
        cases hp0 : p with
        | nil => rw [hp0] at hhead; simp at hhead
        | cons a t =>
          rw [hp0] at hhead
          have ha : a = '/' := by simpa using hhead
          have hlen : (t.takeWhile isSlash).length = 0 := by
            have : leadingSlashRun p = 1 + (t.takeWhile isSlash).length := by
              rw [leadingSlashRun, hp0, ha]
              simp [List.takeWhile_cons, isSlash]
              omega
            omega
          rw [leadingSlashRun, ha]
          simp [List.takeWhile_cons, isSlash, hlen]
    rw [joinSlashRun, hb, hp1]

theorem assembleUrl_join_normalization_witness :
    assembleUrl ⟨"http".data, "h".data, "80".data, "/v1".data ++ ['/']⟩ ("x".data)
      = assembleUrl ⟨"http".data, "h".data, "80".data, "/v1".data⟩ ("x".data) ∧
    assembleUrl ⟨"http".data, "h".data, "80".data, "/v1".data⟩ ("x".data)
      = assembleUrl ⟨"http".data, "h".data, "80".data, "/v1".data⟩ ('/' :: "x".data) ∧
    joinSlashRun ⟨"http".data, "h".data, "80".data, "/v1".data⟩ ("x".data) = 1 :=
  ⟨assembleUrl_join_normalization.1 ⟨"http".data, "h".data, "80".data, "/v1".data⟩
      ("/v1".data) ("x".data) (by decide),
   assembleUrl_join_normalization.2.1 ⟨"http".data, "h".data, "80".data, "/v1".data⟩
      ("x".data) (by decide),
   assembleUrl_join_normalization.2.2 ⟨"http".data, "h".data, "80".data, "/v1".data⟩
      ("x".data) (by decide) (by decide)⟩

/-- A JS settings object as a key-presence map: a key maps to `some v`
when the object has that own property with value `v`. -/
def JsObject (V : Type) : Type := String → Option V

/-- `Object.assign({}, source1, source2)`: the target is a fresh empty
object, later sources override earlier ones key by key. -/
def objectAssignFresh {V : Type} (source1 source2 : JsObject V) : JsObject V :=
  fun key => (source2 key).orElse (fun _ => source1 key)

/-- A heap of settings objects addressed by reference, with an allocation
counter: models JS object identity, so that mutation — or its absence —
of `this.settings` is observable. -/
structure SettingsStore (V : Type) where
  next : Nat
  mem : Nat → JsObject V

/-- `LlamaCppCompletionModel.withSettings` (part_004 lines 432-441): the
new model is constructed over `Object.assign({}, this.settings,
additionalSettings)` — the assign target is a fresh object, not
`this.settings`. Returns the updated store and the settings reference held
by the new model. -/
def withSettings {V : Type} (store : SettingsStore V) (thisSettingsRef : Nat)
    (additionalSettings : JsObject V) : SettingsStore V × Nat :=
  let freshRef := store.next
  let merged := objectAssignFresh (store.mem thisSettingsRef) additionalSettings
  (⟨freshRef + 1, fun r => if r = freshRef then merged else store.mem r⟩, freshRef)

/-- **C10**: `withSettings` returns a new model whose settings agree with
the original settings except exactly at the keys present in the partial
settings object, where the new values win; and the call leaves the
original model's settings object unchanged. -/
theorem withSettings_overrides_and_preserves {V : Type} (store : SettingsStore V)
    (thisSettingsRef : Nat) (additionalSettings : JsObject V)
    (href : thisSettingsRef < store.next) :
    (∀ key, (withSettings store thisSettingsRef additionalSettings).1.mem
          (withSettings store thisSettingsRef additionalSettings).2 key
        = match additionalSettings key with
          | some v => some v
          | none => store.mem thisSettingsRef key) ∧
    (withSettings store thisSettingsRef additionalSettings).1.mem thisSettingsRef
      = store.mem thisSettingsRef := by
  constructor
  · intro key
    simp only [withSettings, if_pos]
    rw [objectAssignFresh]
    cases additionalSettings key <;> simp [Option.orElse]
  · have hne : thisSettingsRef ≠ store.next := Nat.ne_of_lt href
    simp [withSettings, hne]

theorem withSettings_overrides_and_preserves_witness :
    (withSettings ⟨1, fun _ _ => none⟩ 0
          (fun k => if k = "temperature" then some 5 else none)).1.mem
        (withSettings ⟨1, fun _ _ => none⟩ 0
          (fun k => if k = "temperature" then some 5 else none)).2 "temperature"
      = some 5 ∧
    (withSettings ⟨1, fun _ _ => none⟩ 0
          (fun k => if k = "temperature" then some 5 else none)).1.mem 0 "topK"
      = none := by
  have h := withSettings_overrides_and_preserves (V := Nat) ⟨1, fun _ _ => none⟩ 0
    (fun k => if k = "temperature" then some 5 else none) (by decide)
  constructor
  · rw [h.1 "temperature"]
    rfl
  · rw [h.2]

end ModelFusion
